import Mathlib

/-!
Verification of the `nport` transmission-line extractor (`nport/tline.py`) and
Touchstone codec (`nport/touchstone.py`).

The Python source operates on numpy arrays of IEEE doubles; the embedding uses
`List ℝ` / `List ℂ` with exact real arithmetic, which is the standard
idealisation for the numerical claims ("up to numeric tolerance" becomes exact
equality over ℝ/ℂ).  Sequences are index-aligned lists; a P×P complex matrix is
embedded as a total function `ℕ → ℕ → ℂ` whose entries outside `[0,P)×[0,P)`
are irrelevant junk, matching a numpy array of shape (P, P) together with its
bound checks (an out-of-bounds store is modelled as an explicit error).
-/

open Real Complex

namespace NPort

/-! ## numpy phase unwrapping (`np.unwrap` with default discont = π)

`np.unwrap(p)` computes `dd = diff(p)`, `ddmod = mod(dd + π, 2π) - π` (floor
mod), flips `ddmod` entries equal to `-π` with positive `dd` to `π`, zeroes the
correction where `|dd| < π`, and adds the cumulative sum of the corrections to
the tail of `p`.  `npMod` is numpy's floating-point `mod` (floor modulus). -/

noncomputable def npMod (a b : ℝ) : ℝ := a - b * (Int.floor (a / b) : ℝ)

/-- numpy's `ddmod = mod(dd + pi, 2*pi) - pi` for one difference `d`. -/
noncomputable def npDdmod (d : ℝ) : ℝ := npMod (d + π) (2 * π) - π

/-- numpy's special case: a `ddmod` of `-π` with positive `dd` becomes `π`. -/
noncomputable def npDdmod2 (d : ℝ) : ℝ := if npDdmod d = -π ∧ 0 < d then π else npDdmod d

/-- Correction added (cumulatively) for one consecutive difference `d`. -/
noncomputable def phCorrect (d : ℝ) : ℝ := if |d| < π then 0 else npDdmod2 d - d

/-- Tail of the unwrap: `prev` is the previous *original* sample, `acc` the
correction accumulated so far. -/
noncomputable def unwrapAux (prev acc : ℝ) : List ℝ → List ℝ
  | [] => []
  | x :: rest =>
      (x + (acc + phCorrect (x - prev))) :: unwrapAux x (acc + phCorrect (x - prev)) rest

/-- `np.unwrap` on a whole sequence: the first element is unchanged. -/
noncomputable def unwrap : List ℝ → List ℝ
  | [] => []
  | x :: rest => x :: unwrapAux x 0 rest

theorem unwrapAux_length (l : List ℝ) : ∀ prev acc, (unwrapAux prev acc l).length = l.length := by
  induction l with
  | nil => intro prev acc; rfl
  | cons x rest ih => intro prev acc; simpa [unwrapAux] using ih x _

theorem unwrap_length (l : List ℝ) : (unwrap l).length = l.length := by
  cases l with
  | nil => rfl
  | cons x rest => simpa [unwrap] using unwrapAux_length rest x 0

/-- Every unwrap correction is an integer multiple of 2π. -/
theorem phCorrect_int_mul (d : ℝ) : ∃ m : ℤ, phCorrect d = 2 * π * m := by
  unfold phCorrect npDdmod2 npDdmod npMod
  split_ifs with h1 h2
  · exact ⟨0, by simp⟩
  · refine ⟨1 - Int.floor ((d + π) / (2 * π)), ?_⟩
    push_cast
    linarith [h2.1]
  · exact ⟨-Int.floor ((d + π) / (2 * π)), by push_cast; ring⟩

/-- Unwrapping changes every element by an integer multiple of 2π. -/
theorem unwrapAux_getD (l : List ℝ) :
    ∀ prev acc k, (∃ m : ℤ, acc = 2 * π * m) →
      ∃ m : ℤ, (unwrapAux prev acc l).getD k 0 = l.getD k 0 + 2 * π * m := by
  induction l with
  | nil => intro prev acc k _; exact ⟨0, by simp [unwrapAux]⟩
  | cons x rest ih =>
      intro prev acc k hacc
      obtain ⟨ma, hma⟩ := hacc
      obtain ⟨mc, hmc⟩ := phCorrect_int_mul (x - prev)
      cases k with
      | zero => exact ⟨ma + mc, by simp [unwrapAux, hma, hmc]; ring⟩
      | succ k' =>
          obtain ⟨m, hm⟩ := ih x (acc + phCorrect (x - prev)) k'
            ⟨ma + mc, by rw [hma, hmc]; push_cast; ring⟩
          exact ⟨m, by simpa [unwrapAux] using hm⟩

theorem unwrap_getD (l : List ℝ) (k : ℕ) :
    ∃ m : ℤ, (unwrap l).getD k 0 = l.getD k 0 + 2 * π * m := by
  cases l with
  | nil => exact ⟨0, by simp [unwrap]⟩
  | cons x rest =>
      cases k with
      | zero => exact ⟨0, by simp [unwrap]⟩
      | succ k' =>
          obtain ⟨m, hm⟩ := unwrapAux_getD rest x 0 k' ⟨0, by simp⟩
          exact ⟨m, by simpa [unwrap] using hm⟩

/-- With consecutive differences of magnitude at most π, no correction occurs. -/
theorem phCorrect_eq_zero {d : ℝ} (h : |d| ≤ π) : phCorrect d = 0 := by
  rcases lt_or_eq_of_le h with hlt | heq
  · simp [phCorrect, hlt]
  · have hd : d = π ∨ d = -π := (abs_eq (le_of_lt pi_pos)).mp heq
    unfold phCorrect npDdmod2 npDdmod npMod
    rcases hd with h1 | h1
    · subst h1
      have hfl : Int.floor ((π + π) / (2 * π)) = 1 := by
        rw [show (π + π) / (2 * π) = 1 by field_simp; ring]
        simp
      split_ifs with hc1 hc2
      · rfl
      · ring
      · exfalso
        apply hc2
        refine ⟨?_, pi_pos⟩
        rw [hfl]
        push_cast
        ring
    · subst h1
      have hfl : Int.floor ((-π + π) / (2 * π)) = 0 := by
        rw [show (-π + π) / (2 * π) = 0 by simp]
        simp
      split_ifs with hc1 hc2
      · rfl
      · exfalso; linarith [hc2.2, pi_pos]
      · rw [hfl]
        push_cast
        ring

/-- A sequence with no jumps over π unwraps to itself. -/
theorem unwrapAux_eq_self (l : List ℝ) :
    ∀ prev, List.Chain' (fun x y => |y - x| ≤ π) (prev :: l) → unwrapAux prev 0 l = l := by
  induction l with
  | nil => intro prev _; rfl
  | cons x rest ih =>
      intro prev hch
      have h1 : |x - prev| ≤ π := by
        have := List.chain'_cons.mp hch
        exact this.1
      have h2 : List.Chain' (fun x y => |y - x| ≤ π) (x :: rest) :=
        (List.chain'_cons.mp hch).2
      simp [unwrapAux, phCorrect_eq_zero h1, ih x h2]

theorem unwrap_eq_self {l : List ℝ} (h : List.Chain' (fun x y => |y - x| ≤ π) l) :
    unwrap l = l := by
  cases l with
  | nil => rfl
  | cons x rest => simp [unwrap, unwrapAux_eq_self rest x h]

/-! ## `nport/tline.py` — complex branch functions -/

/-- `unwrap_sqrt` from `tline.py`:
`mag, ang = np.abs(arg), np.unwrap(np.angle(arg)); sqrt(mag) * exp(1j * ang / 2)`. -/
noncomputable def unwrap_sqrt (xs : List ℂ) : List ℂ :=
  List.zipWith (fun (m a : ℝ) => (Real.sqrt m : ℂ) * Complex.exp (Complex.I * (a : ℂ) / 2))
    (xs.map Complex.abs) (unwrap (xs.map Complex.arg))

/-- `unwrap_log` from `tline.py`:
`mag, ang = np.abs(arg), np.unwrap(np.angle(arg)); log(mag) + 1j * ang`. -/
noncomputable def unwrap_log (xs : List ℂ) : List ℂ :=
  List.zipWith (fun (m a : ℝ) => (Real.log m : ℂ) + Complex.I * (a : ℂ))
    (xs.map Complex.abs) (unwrap (xs.map Complex.arg))

theorem unwrap_sqrt_length (xs : List ℂ) : (unwrap_sqrt xs).length = xs.length := by
  rw [unwrap_sqrt, List.length_zipWith, unwrap_length, List.length_map, List.length_map,
    min_self]

theorem unwrap_log_length (xs : List ℂ) : (unwrap_log xs).length = xs.length := by
  rw [unwrap_log, List.length_zipWith, unwrap_length, List.length_map, List.length_map,
    min_self]

/-- `exp` inverts `unwrap_log` at every index holding a nonzero value: the
unwrapped angle differs from the principal argument by a multiple of 2π. -/
theorem exp_unwrap_log (xs : List ℂ) (k : ℕ) (hk : k < xs.length)
    (h0 : xs.getD k 0 ≠ 0) :
    Complex.exp ((unwrap_log xs).getD k 0) = xs.getD k 0 := by
  obtain ⟨m, hm⟩ := unwrap_getD (xs.map Complex.arg) k
  have hlu : (unwrap (xs.map Complex.arg)).length = xs.length := by
    simp [unwrap_length]
  have hkl : k < (unwrap_log xs).length := by rw [unwrap_log_length]; exact hk
  have hzip : (unwrap_log xs).getD k 0 =
      (Real.log (Complex.abs (xs.getD k 0)) : ℂ) +
        Complex.I * ((unwrap (xs.map Complex.arg)).getD k 0) := by
    rw [List.getD_eq_getElem _ _ hkl]
    rw [List.getD_eq_getElem _ _ hk]
    simp only [unwrap_log]
    rw [List.getElem_zipWith]
    congr 2
    · rw [List.getElem_map]
    · rw [List.getD_eq_getElem _ _ (by rw [hlu]; exact hk)]
  have harg : ((xs.map Complex.arg).getD k 0) = Complex.arg (xs.getD k 0) := by
    rw [List.getD_eq_getElem _ _ (by simpa using hk), List.getD_eq_getElem _ _ hk,
      List.getElem_map]
  rw [hzip, hm, harg]
  have hsplit : (Real.log (Complex.abs (xs.getD k 0)) : ℂ) +
      Complex.I * ((Complex.arg (xs.getD k 0) + 2 * π * (m : ℝ) : ℝ) : ℂ) =
      (Real.log (Complex.abs (xs.getD k 0)) : ℂ) +
        ↑(Complex.arg (xs.getD k 0)) * Complex.I + ↑m * (2 * ↑π * Complex.I) := by
    push_cast
    ring
  rw [hsplit, Complex.exp_add, Complex.exp_int_mul_two_pi_mul_I, mul_one,
    Complex.exp_add, ← Complex.ofReal_exp,
    Real.exp_log (Complex.abs.pos h0)]
  exact Complex.abs_mul_exp_arg_mul_I _

/-- Pointwise principal square root: `√|x| · exp(i·arg x / 2)` is the principal
complex power `x ^ (1/2)`. -/
theorem sqrt_abs_mul_exp_half_arg (x : ℂ) :
    (Real.sqrt (Complex.abs x) : ℂ) * Complex.exp (Complex.I * (Complex.arg x) / 2) =
      x ^ ((1 : ℂ)/2) := by
  by_cases hx : x = 0
  · subst hx
    rw [Complex.zero_cpow (by norm_num : ((1 : ℂ)/2) ≠ 0)]
    simp
  · rw [Complex.cpow_def_of_ne_zero hx]
    have habs : (0 : ℝ) < Complex.abs x := Complex.abs.pos hx
    have hsqrt : Real.sqrt (Complex.abs x) = Real.exp (Real.log (Complex.abs x) / 2) := by
      rw [← Real.exp_log (Real.sqrt_pos.mpr habs), Real.log_sqrt habs.le]
    rw [hsqrt, Complex.ofReal_exp, ← Complex.exp_add]
    congr 1
    rw [Complex.log]
    push_cast
    ring

/-- Pointwise principal logarithm: `log|x| + i·arg x` is `Complex.log x`. -/
theorem log_abs_add_mul_arg (x : ℂ) :
    (Real.log (Complex.abs x) : ℂ) + Complex.I * (Complex.arg x) = Complex.log x := by
  rw [Complex.log]
  ring

theorem zipWith_map_same {α β γ δ : Type} (f : β → γ → δ) (g : α → β) (h : α → γ)
    (l : List α) :
    List.zipWith f (l.map g) (l.map h) = l.map (fun x => f (g x) (h x)) := by
  induction l with
  | nil => rfl
  | cons x rest ih => simp [ih]

/-! ## `nport/tline.py` — TransmissionLine extractor

`TransmissionLine.__init__` extracts the scalar chain-parameter sequences
`a`, `b`, `c`, `d` (one complex value per frequency) from the converted
two-port and derives the quantities below.  The embedding takes those four
sequences and the length directly as inputs (the conversion and scalar
extraction live in the external `TwoNPort` collaborator). -/

namespace TransmissionLine

/-- `sum = (self.a + self.d) / 2.0` (elementwise). -/
noncomputable def sum (a d : List ℂ) : List ℂ :=
  List.zipWith (fun x y => (x + y) / 2) a d

/-- `ad_bc = self.a * self.d - self.b * self.c` (elementwise). -/
noncomputable def ad_bc (a b c d : List ℂ) : List ℂ :=
  List.zipWith (fun x y => x - y)
    (List.zipWith (fun x y => x * y) a d) (List.zipWith (fun x y => x * y) b c)

/-- `delta = unwrap_sqrt(sum**2 - ad_bc)`. -/
noncomputable def delta (a b c d : List ℂ) : List ℂ :=
  unwrap_sqrt (List.zipWith (fun s p => s ^ 2 - p) (sum a d) (ad_bc a b c d))

/-- `exp_gl_forward = sum + delta`. -/
noncomputable def exp_gl_forward (a b c d : List ℂ) : List ℂ :=
  List.zipWith (fun x y => x + y) (sum a d) (delta a b c d)

/-- `exp_gl_backward = sum - delta`. -/
noncomputable def exp_gl_backward (a b c d : List ℂ) : List ℂ :=
  List.zipWith (fun x y => x - y) (sum a d) (delta a b c d)

/-- `self._gamma_forward = unwrap_log(exp_gl_forward) / self.length`. -/
noncomputable def gamma_forward (a b c d : List ℂ) (len : ℝ) : List ℂ :=
  (unwrap_log (exp_gl_forward a b c d)).map (fun x => x / (len : ℂ))

/-- `self._gamma_backward = - unwrap_log(exp_gl_backward) / self.length`. -/
noncomputable def gamma_backward (a b c d : List ℂ) (len : ℝ) : List ℂ :=
  (unwrap_log (exp_gl_backward a b c d)).map (fun x => (-x) / (len : ℂ))

/-- Instance attribute names assigned on `self` by `TransmissionLine.__init__`,
in source order (Python instance dictionary after construction). -/
def initAttrs : List String :=
  ["twonport", "freqs", "length", "a", "b", "c", "d",
   "delta_pre", "delta", "exp_gl_forward", "exp_gl_backward",
   "_gamma_forward", "_gamma_backward", "_z0_forward", "_z0_backward",
   "_rpm_forward", "_lpm_forward", "_gpm_forward", "_cpm_forward",
   "_rpm_backward", "_lpm_backward", "_gpm_backward", "_cpm_backward"]

/-- Result of a Python attribute read on an instance. -/
inductive PyAttr where
  | found : PyAttr
  | attributeError : PyAttr
  deriving DecidableEq

/-- Python attribute lookup against the instance dictionary: absent names
raise `AttributeError`. -/
def pyGetattr (attrs : List String) (name : String) : PyAttr :=
  if name ∈ attrs then .found else .attributeError

/-- The instance attribute each public property accessor returns:
`gamma → self._gamma`, `z0 → self._z0`, `rpm → self._rpm`, `lpm → self._lpm`,
`gpm → self._gpm`, `cpm → self._cpm`. -/
def accessorAttrs : List String := ["_gamma", "_z0", "_rpm", "_lpm", "_gpm", "_cpm"]

end TransmissionLine

/-- **C1** — Refuted by the code (code bug): `TransmissionLine.__init__` assigns
only the branch-suffixed attributes (`_gamma_forward`, `_gamma_backward`,
`_z0_forward`, …), never `_gamma`, `_z0`, `_rpm`, `_lpm`, `_gpm` or `_cpm`;
hence each of the six public property accessors `gamma`, `z0`, `rpm`, `lpm`,
`gpm`, `cpm` reads an attribute absent from the instance dictionary and raises
`AttributeError` instead of returning the derived per-frequency sequence. -/
theorem tline_accessors_raise_attribute_error :
    TransmissionLine.pyGetattr TransmissionLine.initAttrs "_gamma" = .attributeError ∧
    TransmissionLine.pyGetattr TransmissionLine.initAttrs "_z0" = .attributeError ∧
    TransmissionLine.pyGetattr TransmissionLine.initAttrs "_rpm" = .attributeError ∧
    TransmissionLine.pyGetattr TransmissionLine.initAttrs "_lpm" = .attributeError ∧
    TransmissionLine.pyGetattr TransmissionLine.initAttrs "_gpm" = .attributeError ∧
    TransmissionLine.pyGetattr TransmissionLine.initAttrs "_cpm" = .attributeError := by
  decide

/-- **C6** — At every frequency index where the candidate exponentials
`mean + delta` (`exp_gl_forward`) and `mean − delta` (`exp_gl_backward`) are
nonzero, and for a nonzero line length, the extractor's propagation constants
satisfy `exp(γ_forward·length) = mean + delta` and
`exp(−γ_backward·length) = mean − delta` exactly. -/
theorem exp_gamma_mul_length_eq (a b c d : List ℂ) (len : ℝ) (k : ℕ)
    (hk : k < (TransmissionLine.exp_gl_forward a b c d).length)
    (hlen : len ≠ 0)
    (hf : (TransmissionLine.exp_gl_forward a b c d).getD k 0 ≠ 0)
    (hb : (TransmissionLine.exp_gl_backward a b c d).getD k 0 ≠ 0) :
    Complex.exp ((TransmissionLine.gamma_forward a b c d len).getD k 0 * (len : ℂ)) =
        (TransmissionLine.exp_gl_forward a b c d).getD k 0 ∧
      Complex.exp (-((TransmissionLine.gamma_backward a b c d len).getD k 0 * (len : ℂ))) =
        (TransmissionLine.exp_gl_backward a b c d).getD k 0 := by
  have hlenC : (len : ℂ) ≠ 0 := Complex.ofReal_ne_zero.mpr hlen
  have hkb : k < (TransmissionLine.exp_gl_backward a b c d).length := by
    have : (TransmissionLine.exp_gl_backward a b c d).length =
        (TransmissionLine.exp_gl_forward a b c d).length := by
      simp [TransmissionLine.exp_gl_forward, TransmissionLine.exp_gl_backward]
    rw [this]
    exact hk
  constructor
  · have h1 : k < (unwrap_log (TransmissionLine.exp_gl_forward a b c d)).length := by
      rw [unwrap_log_length]
      exact hk
    have hg : (TransmissionLine.gamma_forward a b c d len).getD k 0 =
        (unwrap_log (TransmissionLine.exp_gl_forward a b c d)).getD k 0 / (len : ℂ) := by
      rw [TransmissionLine.gamma_forward,
        List.getD_eq_getElem _ _ (by simpa using h1), List.getElem_map,
        List.getD_eq_getElem _ _ h1]
    rw [hg, div_mul_cancel₀ _ hlenC]
    exact exp_unwrap_log _ k hk hf
  · have h1 : k < (unwrap_log (TransmissionLine.exp_gl_backward a b c d)).length := by
      rw [unwrap_log_length]
      exact hkb
    have hg : (TransmissionLine.gamma_backward a b c d len).getD k 0 =
        (-((unwrap_log (TransmissionLine.exp_gl_backward a b c d)).getD k 0)) / (len : ℂ) := by
      rw [TransmissionLine.gamma_backward,
        List.getD_eq_getElem _ _ (by simpa using h1), List.getElem_map,
        List.getD_eq_getElem _ _ h1]
    rw [hg, neg_div, neg_mul, neg_neg, div_mul_cancel₀ _ hlenC]
    exact exp_unwrap_log _ k hkb hb

/-- Witness for C6 at the chain matrix A = D = 2, B = C = 0 with length 1. -/
theorem exp_gamma_mul_length_eq_witness :
    Complex.exp ((TransmissionLine.gamma_forward [2] [0] [0] [2] 1).getD 0 0 * ((1:ℝ) : ℂ)) =
        (TransmissionLine.exp_gl_forward [2] [0] [0] [2]).getD 0 0 ∧
      Complex.exp (-((TransmissionLine.gamma_backward [2] [0] [0] [2] 1).getD 0 0 * ((1:ℝ) : ℂ))) =
        (TransmissionLine.exp_gl_backward [2] [0] [0] [2]).getD 0 0 := by
  have hdelta : TransmissionLine.delta [2] [0] [0] [2] = [0] := by
    have h1 : List.zipWith (fun s p => s ^ 2 - p)
        (TransmissionLine.sum [2] [2]) (TransmissionLine.ad_bc [2] [0] [0] [2]) = [0] := by
      norm_num [TransmissionLine.sum, TransmissionLine.ad_bc]
    rw [TransmissionLine.delta, h1]
    norm_num [unwrap_sqrt, unwrap, unwrapAux, Complex.arg_zero]
  have hfw : TransmissionLine.exp_gl_forward [2] [0] [0] [2] = [2] := by
    rw [TransmissionLine.exp_gl_forward, hdelta]
    norm_num [TransmissionLine.sum]
  have hbw : TransmissionLine.exp_gl_backward [2] [0] [0] [2] = [2] := by
    rw [TransmissionLine.exp_gl_backward, hdelta]
    norm_num [TransmissionLine.sum]
  exact exp_gamma_mul_length_eq [2] [0] [0] [2] 1 0
    (by rw [hfw]; norm_num) one_ne_zero
    (by rw [hfw]; norm_num) (by rw [hbw]; norm_num)

/-- **C10** — On an input sequence whose consecutive principal arguments never
differ by more than π (no 2π unwrap corrections), `unwrap_sqrt` equals the
pointwise principal complex square root `x ^ (1/2)` and `unwrap_log` equals the
pointwise principal complex logarithm `Complex.log`. -/
theorem unwrap_sqrt_log_no_jump (l : List ℂ)
    (h : List.Chain' (fun x y => |y - x| ≤ π) (l.map Complex.arg)) :
    unwrap_sqrt l = l.map (fun x => x ^ ((1 : ℂ)/2)) ∧
      unwrap_log l = l.map Complex.log := by
  constructor
  · rw [unwrap_sqrt, unwrap_eq_self h, zipWith_map_same]
    exact List.map_congr_left fun x _ => sqrt_abs_mul_exp_half_arg x
  · rw [unwrap_log, unwrap_eq_self h, zipWith_map_same]
    exact List.map_congr_left fun x _ => log_abs_add_mul_arg x

/-- Witness for C10 on the singleton sequence `[1]`. -/
theorem unwrap_sqrt_log_no_jump_witness :
    unwrap_sqrt [(1 : ℂ)] = [(1 : ℂ)].map (fun x => x ^ ((1 : ℂ)/2)) ∧
      unwrap_log [(1 : ℂ)] = [(1 : ℂ)].map Complex.log :=
  unwrap_sqrt_log_no_jump [1] (by simp)

/-! ## `nport/touchstone.py` — Touchstone codec -/

namespace Touchstone

/-- Errors raised by the codec: `EOFError` (clean end-of-data signal),
`AssertionError`, `ParseError`, `NotImplementedError`, `ValueError`,
`Exception` with a structural message, and numpy's `IndexError`. -/
inductive TSErr where
  | eof : TSErr
  | assertFailed : TSErr
  | parseError : String → TSErr
  | notImplemented : TSErr
  | valueError : String → TSErr
  | structural : String → TSErr
  | indexError : TSErr
  deriving DecidableEq

/-- Modelled from the spec: the parameter-type tags of the `nport` collaborator
package (`nport.SCATTERING` and friends; the package root is not under
`src/`).  The codec only ever produces the scattering tag. -/
inductive PType where
  | scattering : PType
  | admittance : PType
  | impedance : PType
  | hybridH : PType
  | hybridG : PType
  deriving DecidableEq

/-- Metadata produced by `_parse_option_line`:
`(frequnit, type, format, z0)`. -/
structure Options where
  frequnit : ℝ
  ptype : PType
  fmt : String
  z0 : ℝ

/-- Python `.split()` on a character list: split on whitespace runs, dropping
empty fragments; `cur` is the current token accumulated in reverse. -/
def wsSplit : List Char → List Char → List (List Char)
  | [], cur => if cur.isEmpty then [] else [cur.reverse]
  | c :: rest, cur =>
      if c.isWhitespace then
        if cur.isEmpty then wsSplit rest [] else cur.reverse :: wsSplit rest []
      else wsSplit rest (c :: cur)

/-- `line[1:].upper().split()` from `_parse_option_line`. -/
def optTokens (line : String) : List String :=
  (wsSplit ((line.toList.drop 1).map Char.toUpper) []).map (fun cs => String.mk cs)

def natOfDigits (cs : List Char) : ℕ :=
  cs.foldl (fun acc c => 10 * acc + (c.toNat - 48)) 0

/-- Modelled from the spec: Python's builtin `float()` (used for the
reference-impedance token), restricted to plain decimal literals
`digits [ '.' digits ]` — exponent and special forms do not occur in the
claims under study. -/
noncomputable def parseUnsigned (cs : List Char) : Option ℝ :=
  match cs.dropWhile Char.isDigit with
  | [] => if (cs.takeWhile Char.isDigit).isEmpty then none else some (natOfDigits cs)
  | '.' :: frac =>
      if ((cs.takeWhile Char.isDigit).isEmpty ∧ frac.isEmpty) ∨ ¬ (frac.all Char.isDigit)
      then none
      else some ((natOfDigits (cs.takeWhile Char.isDigit) : ℝ) +
        (natOfDigits frac : ℝ) / 10 ^ frac.length)
  | _ => none

/-- Modelled from the spec: Python `float()` with an optional sign. -/
noncomputable def parseFloat (s : String) : Option ℝ :=
  match s.toList with
  | '-' :: rest => (parseUnsigned rest).map (fun x => -x)
  | '+' :: rest => parseUnsigned rest
  | cs => parseUnsigned cs

/-- `prefix[option[:-2]]` from `_parse_option_line`: the frequency-unit token
with `HZ` stripped selects the multiplier (`'' → 1, K → 1e3, M → 1e6, G → 1e9`). -/
noncomputable def unitScale (u : String) : ℝ :=
  if u = "KHZ" then 1e3 else if u = "MHZ" then 1e6 else if u = "GHZ" then 1e9 else 1

/-- The option-scanning loop of `_parse_option_line`.  Faithful to the source:
a parameter-type token (`S`, `Y`, `Z`, `H`, `G`) is bound to the dead local
variable `parameter` and the running `type` value is left unchanged; `R`
consumes the following token as the impedance value (`IndexError` when it is
the last token, `ValueError` when `float()` rejects it). -/
noncomputable def parseOptions : List String → Options → Except TSErr Options
  | [], acc => .ok acc
  | o :: rest, acc =>
      if o = "GHZ" ∨ o = "MHZ" ∨ o = "KHZ" ∨ o = "HZ" then
        parseOptions rest ⟨unitScale o, acc.ptype, acc.fmt, acc.z0⟩
      else if o = "DB" ∨ o = "MA" ∨ o = "RI" then
        parseOptions rest ⟨acc.frequnit, acc.ptype, o, acc.z0⟩
      else if o = "S" ∨ o = "Y" ∨ o = "Z" ∨ o = "H" ∨ o = "G" then
        parseOptions rest acc
      else if o = "R" then
        match rest with
        | [] => .error .indexError
        | v :: rest2 =>
            match parseFloat v with
            | none => .error (.valueError "could not convert string to float")
            | some x => parseOptions rest2 ⟨acc.frequnit, acc.ptype, acc.fmt, x⟩
      else .error (.parseError ("unrecognized option: " ++ o))

/-- Defaults of `_parse_option_line`: 1 GHz, scattering type, `MA`, 50 Ω. -/
noncomputable def defaultOptions : Options := ⟨1e9, PType.scattering, "MA", 50⟩

/-- `_parse_option_line` applied to the option line (the line already found to
start with `#`): scan the tokens, then refuse non-scattering parameter types
(`NotImplementedError`). -/
noncomputable def parseOptionLine (line : String) : Except TSErr Options :=
  match parseOptions (optTokens line) defaultOptions with
  | .ok acc => if acc.ptype ≠ PType.scattering then .error .notImplemented else .ok acc
  | .error e => .error e

/-- `file.readline()` semantics: reading past the end of the stream yields the
empty string, forever. -/
def readlineAt (lines : List String) (n : ℕ) : String := lines.getD n ""

def startsWithHash (s : String) : Bool :=
  match s.toList with
  | '#' :: _ => true
  | _ => false

/-- The option-line scan of `_parse_option_line`
(`line = file.readline(); while not line.startswith('#'): line = file.readline()`),
bounded by `fuel` iterations starting at line index `pos`: returns the option
line if one is reached within `fuel` reads, `none` if `fuel` runs out first. -/
def scanOpt (lines : List String) : ℕ → ℕ → Option String
  | 0, _ => none
  | fuel + 1, pos =>
      if startsWithHash (readlineAt lines pos) then some (readlineAt lines pos)
      else scanOpt lines fuel (pos + 1)

/-- **C7** — Refuted by the code (code bug): on a finite file containing no
line that starts with `#`, the option-line scan of `read` never terminates:
at end-of-file `readline` returns `''` forever, `''.startswith('#')` is false,
and the loop has no other exit.  Formally, on the one-line stream `["hello"]`
no iteration bound whatsoever makes the scan succeed — the loop runs forever —
so `read` does not run to completion, contradicting the claim. -/
theorem scanOpt_no_hash_never_finds :
    ∀ fuel pos, scanOpt ["hello"] fuel pos = none := by
  intro fuel
  induction fuel with
  | zero => intro pos; rfl
  | succ n ih =>
      intro pos
      have h : startsWithHash (readlineAt ["hello"] pos) = false := by
        cases pos with
        | zero => rfl
        | succ p =>
            rw [readlineAt, List.getD_cons_succ, List.getD_nil]
            rfl
      simp [scanOpt, h, ih]

/-- **C2** — Refuted by the code (code bug): the scanning loop stores a
parameter-type token into the dead local `parameter` instead of the `type`
variable, so `type` keeps its scattering default, the final non-scattering
check never fires, and an option line carrying type `Y` parses successfully —
returning metadata whose type tag is still the scattering default — instead of
raising `NotImplementedError`. -/
theorem parse_option_line_Y_returns_metadata :
    parseOptionLine "# HZ Y MA" = .ok ⟨1, PType.scattering, "MA", 50⟩ := by
  rfl

/-- **C8** — A token in scanning position that is not a recognised frequency
unit, numeric format, parameter type, or the reference-impedance marker `R`
makes the option scan fail with a `ParseError` naming that token; in
particular the malformed option line `# XYZ S MA` fails with
`unrecognized option: XYZ`. -/
theorem parse_options_unrecognized_token (t : String) (rest : List String)
    (acc : Options)
    (hu : ¬ (t = "GHZ" ∨ t = "MHZ" ∨ t = "KHZ" ∨ t = "HZ"))
    (hf : ¬ (t = "DB" ∨ t = "MA" ∨ t = "RI"))
    (hp : ¬ (t = "S" ∨ t = "Y" ∨ t = "Z" ∨ t = "H" ∨ t = "G"))
    (hr : t ≠ "R") :
    parseOptions (t :: rest) acc = .error (.parseError ("unrecognized option: " ++ t)) ∧
      parseOptionLine "# XYZ S MA" = .error (.parseError "unrecognized option: XYZ") := by
  refine ⟨?_, rfl⟩
  rw [parseOptions.eq_def]
  dsimp only
  rw [if_neg hu, if_neg hf, if_neg hp, if_neg hr]

/-- Witness for C8 at the token `XYZ`. -/
theorem parse_options_unrecognized_token_witness :
    parseOptions ["XYZ"] defaultOptions =
        .error (.parseError ("unrecognized option: " ++ "XYZ")) ∧
      parseOptionLine "# XYZ S MA" = .error (.parseError "unrecognized option: XYZ") :=
  parse_options_unrecognized_token "XYZ" [] defaultOptions
    (by decide) (by decide) (by decide) (by decide)

/-! ### Data records

`_get_next_line_data` skips comment/option/blank lines, strips inline `!`
comments and tokenises the remaining text into floats; the embedding takes the
resulting stream directly as a `List (List ℝ)` of data lines (reaching the end
of the stream raises `EOFError`).  A P×P numpy matrix is a total function
`ℕ → ℕ → ℂ`: entries with indices below P are meaningful, stores at row or
column index ≥ P raise `IndexError`. -/

/-- Modelled from the spec: the numeric-format conversion functions of the
`nport.parameter` collaborator module (not under `src/`) as used by
`parameter.parameter(**args)` on read — each format turns the two stored
numbers into one complex value: real/imaginary, magnitude/angle-in-degrees, or
dB20-magnitude/angle-in-degrees. -/
noncomputable def decodePair (fmt : String) (u v : ℝ) : ℂ :=
  if fmt = "RI" then (u : ℂ) + (v : ℂ) * Complex.I
  else if fmt = "DB" then
    (((10 : ℝ) ^ (u / 20) : ℝ) : ℂ) * Complex.exp (Complex.I * ((v * π / 180 : ℝ) : ℂ))
  else (u : ℂ) * Complex.exp (Complex.I * ((v * π / 180 : ℝ) : ℂ))

/-- Modelled from the spec: the write-side scalar functions
(`parameter.real/imag`, `parameter.mag/deg`, `parameter.db20/deg`), paired per
format as in the `formats` table. -/
noncomputable def encodePair (fmt : String) (z : ℂ) : ℝ × ℝ :=
  if fmt = "RI" then (z.re, z.im)
  else if fmt = "DB" then
    (20 * Real.log (Complex.abs z) / Real.log 10, Complex.arg z * 180 / π)
  else (Complex.abs z, Complex.arg z * 180 / π)

/-- Where the k-th value pair of a record is stored: the reader walks `port1`
fastest (`port1 = k % ports + 1`, `port2 = k / ports + 1`); for exactly 2
ports it stores at `(port1-1, port2-1)` (column-major fill), for any other
port count at `(port2-1, port1-1)` (row-major fill). -/
def posIdx (ports k : ℕ) : ℕ × ℕ :=
  if ports = 2 then (k % ports, k / ports) else (k / ports, k % ports)

/-- Functional update of the matrix model at one (row, col). -/
def mupd (m : ℕ → ℕ → ℂ) (rc : ℕ × ℕ) (v : ℂ) : ℕ → ℕ → ℂ :=
  fun i j => if i = rc.1 ∧ j = rc.2 then v else m i j

/-- The freshly allocated matrix (`np.array([[None …]], dtype=complex)`);
every meaningful entry is overwritten before a record parse succeeds, so the
initial junk value is arbitrary. -/
def initMat : ℕ → ℕ → ℂ := fun _ _ => 0

/-- `for i in range(len(data) // 2): (data[2*i], data[2*i+1])` — consecutive
value pairs of a line (a trailing odd element is ignored by `range(len//2)`). -/
def chunkPairs : List ℝ → List (ℝ × ℝ)
  | x :: y :: rest => (x, y) :: chunkPairs rest
  | _ => []

/-- The inner `for` loop of `_parse_next_sample` over one line's value pairs:
each pair is decoded and stored at `posIdx`; a store whose `port2` exceeds the
declared port count hits the numpy bound check (`IndexError`, caught and
re-raised as "more ports than reported in the file extension").  `k` counts
the pairs stored so far in this record. -/
noncomputable def fillLine (ports : ℕ) (fmt : String) :
    List (ℝ × ℝ) → ℕ → (ℕ → ℕ → ℂ) → Except TSErr ((ℕ → ℕ → ℂ) × ℕ)
  | [], k, m => .ok (m, k)
  | p :: rest, k, m =>
      if ports ^ 2 ≤ k then
        .error (.structural "more ports than reported in the file extension")
      else fillLine ports fmt rest (k + 1) (mupd m (posIdx ports k) (decodePair fmt p.1 p.2))

/-- The `while True` record loop of `_parse_next_sample`: fill from the
current line's pairs, then either finish the record (`port2 > ports`, with the
`count == ports**2` assertion) or fetch the next continuation line — failing
with `EOFError` at end of stream and with "less ports than reported in the
file extension" on an odd value count. -/
noncomputable def sampleLoop (ports : ℕ) (fmt : String) :
    (ℕ → ℕ → ℂ) → ℕ → List (ℝ × ℝ) → List (List ℝ) →
      Except TSErr ((ℕ → ℕ → ℂ) × List (List ℝ))
  | m, k, vals, lines =>
      match fillLine ports fmt vals k m with
      | .error e => .error e
      | .ok (m', k') =>
          if ports < k' / ports + 1 then
            if k' = ports ^ 2 then .ok (m', lines) else .error .assertFailed
          else
            match lines with
            | [] => .error .eof
            | l :: rest =>
                if l.length % 2 ≠ 0 then
                  .error (.structural "less ports than reported in the file extension")
                else sampleLoop ports fmt m' k' (chunkPairs l) rest

/-- `_parse_next_sample`: take the next data line, require an odd token count
(`assert len(data) % 2 == 1` — a leading frequency), then run the record loop
on the remaining pairs. -/
noncomputable def parseSample (ports : ℕ) (fmt : String) (lines : List (List ℝ)) :
    Except TSErr (ℝ × (ℕ → ℕ → ℂ) × List (List ℝ)) :=
  match lines with
  | [] => .error .eof
  | l :: rest =>
      match l with
      | [] => .error .assertFailed
      | f :: vals =>
          if vals.length % 2 ≠ 0 then .error .assertFailed
          else
            match sampleLoop ports fmt initMat 0 (chunkPairs vals) rest with
            | .error e => .error e
            | .ok (m, rem) => .ok (f, m, rem)

/-- The `while True: … freqs.append/matrices.append` loop of `read`, with
`EOFError` as the clean exit.  `fuel` bounds the number of records;
`lines.length + 1` always suffices because every successful record consumes at
least one line. -/
noncomputable def readSamplesGo (ports : ℕ) (fmt : String) :
    ℕ → List (List ℝ) → Except TSErr (List (ℝ × (ℕ → ℕ → ℂ)))
  | 0, _ => .error .eof
  | fuel + 1, lines =>
      match parseSample ports fmt lines with
      | .error .eof => .ok []
      | .error e => .error e
      | .ok (f, m, rest) =>
          match readSamplesGo ports fmt fuel rest with
          | .error e => .error e
          | .ok out => .ok ((f, m) :: out)

/-- The record-reading phase of `read`. -/
noncomputable def readSamples (ports : ℕ) (fmt : String) (lines : List (List ℝ)) :
    Except TSErr (List (ℝ × (ℕ → ℕ → ℂ))) :=
  readSamplesGo ports fmt (lines.length + 1) lines

/-- `read`, from the option line onward (the `.sNp` port-count extraction and
the raw-text tokenisation of data lines are abstracted: `ports` is the
declared port count, `dataLines` the numeric data-line stream).  Parses the
option line, reads all records, and scales each frequency by the detected
unit. -/
noncomputable def readModel (ports : ℕ) (optLine : String) (dataLines : List (List ℝ)) :
    Except TSErr (List (ℝ × (ℕ → ℕ → ℂ))) :=
  match parseOptionLine optLine with
  | .error e => .error e
  | .ok opts =>
      match readSamples ports opts.fmt dataLines with
      | .error e => .error e
      | .ok out => .ok (out.map (fun fm => (fm.1 * opts.frequnit, fm.2)))

/-! ### Writer (`write`) -/

/-- `instance[i].flatten(order)` with `order = 'F'` (column-major) for 2 ports
and `'C'` (row-major) otherwise: entry `q` of a numpy `'F'` flatten of a P×P
matrix is `m[q % P][q / P]` and of a `'C'` flatten `m[q / P][q % P]` — in both
cases exactly `m (posIdx ports q)`.  Each entry is rendered as the two numbers
of the selected format. -/
noncomputable def flattenMat (ports : ℕ) (fmt : String) (m : ℕ → ℕ → ℂ) : List (ℝ × ℝ) :=
  (List.range (ports ^ 2)).map
    (fun q => encodePair fmt (m (posIdx ports q).1 (posIdx ports q).2))

/-- Pairs per physical line in `write`: a newline is inserted before entry `i`
whenever `i % 3 == 0` (3-port) or `i % 4 == 0` (any other port count). -/
def wrapSize (ports : ℕ) : ℕ := if ports = 3 then 3 else 4

/-- Chunks of `w` elements (the last possibly shorter). -/
def chunkList {α : Type} (w : ℕ) : List α → List (List α)
  | [] => []
  | x :: xs => (x :: xs.take (w - 1)) :: chunkList w (xs.drop (w - 1))
  termination_by l => l.length
  decreasing_by simp [List.length_drop]; omega

/-- Flatten encoded pairs back into the numbers of one physical line. -/
def flatPairs (prs : List (ℝ × ℝ)) : List ℝ :=
  prs.foldr (fun p acc => p.1 :: p.2 :: acc) []

/-- The physical data lines `write` emits for one frequency sample: the
frequency followed by the first chunk of encoded pairs, then one continuation
line per further chunk. -/
noncomputable def sampleLines (ports : ℕ) (fmt : String) (f : ℝ) (m : ℕ → ℕ → ℂ) :
    List (List ℝ) :=
  match chunkList (wrapSize ports) (flattenMat ports fmt m) with
  | [] => [[f]]
  | c :: cs => (f :: flatPairs c) :: cs.map flatPairs

/-- All data lines `write` emits for a dataset. -/
noncomputable def writeLines (ports : ℕ) (fmt : String)
    (freqs : List ℝ) (mats : List (ℕ → ℕ → ℂ)) : List (List ℝ) :=
  (freqs.zip mats).flatMap (fun fm => sampleLines ports fmt fm.1 fm.2)

/-- The option line `write` emits: `"# Hz %s %s R %g" % (instance.type,
format, instance.z0)`.  A scattering-type instance prints its tag as `S`; the
`%g` rendering of the reference impedance is abstracted as a token string. -/
def writeOptionLine (fmt : String) (z0str : String) : String :=
  "# Hz S " ++ fmt ++ " R " ++ z0str

/-- `write` for a scattering-type dataset (a non-scattering instance fails the
type check before reaching this point): refuse unknown format selectors
(`formats[format]` raises `KeyError`, re-raised as
`ValueError("unknown format specified")`), else emit the option line and the
data lines. -/
noncomputable def writeModel (ports : ℕ) (fmt : String) (z0str : String)
    (freqs : List ℝ) (mats : List (ℕ → ℕ → ℂ)) :
    Except TSErr (String × List (List ℝ)) :=
  if fmt = "RI" ∨ fmt = "MA" ∨ fmt = "DB" then
    .ok (writeOptionLine fmt z0str, writeLines ports fmt freqs mats)
  else .error (.valueError "unknown format specified")

/-! ### Fill-order lemmas -/

/-- Inverse of `posIdx`: the pair index at which matrix entry (i, j) is
filled — `j·P + i` (column-major) for 2 ports, `i·P + j` (row-major)
otherwise. -/
def invIdx (ports i j : ℕ) : ℕ :=
  if ports = 2 then j * ports + i else i * ports + j

theorem invIdx_lt {ports i j : ℕ} (hi : i < ports) (hj : j < ports) :
    invIdx ports i j < ports ^ 2 := by
  unfold invIdx
  split_ifs with h2
  · subst h2; omega
  · have h1 : i * ports + j < (i + 1) * ports := by
      rw [Nat.succ_mul]
      omega
    have h2' : (i + 1) * ports ≤ ports * ports :=
      Nat.mul_le_mul_right ports hi
    rw [pow_two]
    omega

theorem posIdx_invIdx {ports i j : ℕ} (hi : i < ports) (hj : j < ports) :
    posIdx ports (invIdx ports i j) = (i, j) := by
  have hP : 0 < ports := by omega
  unfold posIdx invIdx
  split_ifs with h2
  · subst h2
    refine Prod.ext ?_ ?_ <;> simp <;> omega
  · refine Prod.ext ?_ ?_ <;> simp
    · rw [Nat.mul_comm i ports, Nat.mul_add_div hP, Nat.div_eq_of_lt hj]
      omega
    · rw [Nat.mul_comm i ports, Nat.mul_add_mod, Nat.mod_eq_of_lt hj]

theorem invIdx_posIdx {ports k : ℕ} (hk : k < ports ^ 2) :
    invIdx ports (posIdx ports k).1 (posIdx ports k).2 = k := by
  have hP : 0 < ports := by
    by_contra h
    push_neg at h
    interval_cases ports
    simp at hk
  unfold posIdx invIdx
  split_ifs with h2
  · subst h2; simp; omega
  · simp
    rw [Nat.mul_comm, Nat.div_add_mod]

theorem posIdx_lt {ports k : ℕ} (hk : k < ports ^ 2) :
    (posIdx ports k).1 < ports ∧ (posIdx ports k).2 < ports := by
  have hP : 0 < ports := by
    by_contra h
    push_neg at h
    interval_cases ports
    simp at hk
  unfold posIdx
  split_ifs with h2
  · subst h2; constructor <;> simp <;> omega
  · refine ⟨?_, Nat.mod_lt _ hP⟩
    simp only
    rw [Nat.div_lt_iff_lt_mul hP, ← pow_two]
    exact hk

/-- Success and contents of the inner fill loop: when the pairs fit in the
matrix, the loop stores pair `q - k` at position `posIdx q` for every
`q ∈ [k, k + |prs|)` and leaves all other entries unchanged. -/
theorem fillLine_ok (ports : ℕ) (fmt : String) (prs : List (ℝ × ℝ)) :
    ∀ (k : ℕ) (m : ℕ → ℕ → ℂ), k + prs.length ≤ ports ^ 2 →
      ∃ m', fillLine ports fmt prs k m = .ok (m', k + prs.length) ∧
        ∀ i j, i < ports → j < ports →
          m' i j =
            if k ≤ invIdx ports i j ∧ invIdx ports i j < k + prs.length then
              decodePair fmt (prs.getD (invIdx ports i j - k) (0, 0)).1
                (prs.getD (invIdx ports i j - k) (0, 0)).2
            else m i j := by
  induction prs with
  | nil =>
      intro k m _
      refine ⟨m, by simp [fillLine], ?_⟩
      intro i j _ _
      rw [if_neg (by simp only [List.length_nil]; omega)]
  | cons p rest ih =>
      intro k m hfit
      have hk : ¬ (ports ^ 2 ≤ k) := by simp at hfit ⊢; omega
      obtain ⟨m', hrun, hchar⟩ :=
        ih (k + 1) (mupd m (posIdx ports k) (decodePair fmt p.1 p.2))
          (by simp at hfit ⊢; omega)
      refine ⟨m', ?_, ?_⟩
      · rw [fillLine, if_neg hk, hrun]
        congr 1
        simp
        omega
      · intro i j hi hj
        have hq := hchar i j hi hj
        set q := invIdx ports i j with hqdef
        by_cases hcase : k + 1 ≤ q ∧ q < k + 1 + rest.length
        · rw [hq, if_pos hcase, if_pos (by simp; omega)]
          have hsub : q - k = (q - (k + 1)) + 1 := by omega
          rw [hsub, List.getD_cons_succ]
        · by_cases hq_k : q = k
          · have hpos : posIdx ports k = (i, j) := by
              rw [← hq_k, hqdef]
              exact posIdx_invIdx hi hj
            rw [hq, if_neg hcase]
            rw [if_pos (by simp; omega)]
            have : mupd m (posIdx ports k) (decodePair fmt p.1 p.2) i j =
                decodePair fmt p.1 p.2 := by
              rw [mupd, hpos, if_pos ⟨rfl, rfl⟩]
            rw [this, hq_k]
            simp
          · have hout : ¬ (k ≤ q ∧ q < k + (p :: rest).length) := by
              simp only [List.length_cons]
              omega
            rw [hq, if_neg hcase, if_neg hout]
            have hne : ¬ (i = (posIdx ports k).1 ∧ j = (posIdx ports k).2) := by
              rintro ⟨h1, h2⟩
              apply hq_k
              have hklt : k < ports ^ 2 := by omega
              rw [hqdef, h1, h2]
              exact invIdx_posIdx hklt
            rw [mupd, if_neg hne]

theorem flatPairs_length (prs : List (ℝ × ℝ)) : (flatPairs prs).length = 2 * prs.length := by
  induction prs with
  | nil => rfl
  | cons p rest ih => simp [flatPairs] at ih ⊢; omega

theorem chunkPairs_flatPairs (prs : List (ℝ × ℝ)) : chunkPairs (flatPairs prs) = prs := by
  induction prs with
  | nil => rfl
  | cons p rest ih => simp [flatPairs, chunkPairs] at ih ⊢; exact ih

theorem chunkList_flatten {α : Type} (w : ℕ) : ∀ l : List α, (chunkList w l).flatten = l
  | [] => by rw [chunkList]; rfl
  | x :: xs => by
      rw [chunkList]
      show (x :: xs.take (w - 1)) ++ (chunkList w (xs.drop (w - 1))).flatten = x :: xs
      rw [chunkList_flatten w (xs.drop (w - 1))]
      simp [List.take_append_drop]
  termination_by l => l.length
  decreasing_by simp [List.length_drop]; omega

theorem chunkList_ne_nil {α : Type} (w : ℕ) :
    ∀ l : List α, ∀ ch ∈ chunkList w l, ch ≠ []
  | [] => by rw [chunkList]; intro ch h; simp at h
  | x :: xs => by
      rw [chunkList]
      intro ch hch
      rcases List.mem_cons.mp hch with h | h
      · subst h; simp
      · exact chunkList_ne_nil w (xs.drop (w - 1)) ch h
  termination_by l => l.length
  decreasing_by simp [List.length_drop]; omega

/-! Step lemmas unfolding one iteration of `sampleLoop`. -/

theorem sampleLoop_fill_error {ports : ℕ} {fmt : String} {vals : List (ℝ × ℝ)} {k : ℕ}
    {m : ℕ → ℕ → ℂ} {e : TSErr} (hfill : fillLine ports fmt vals k m = .error e)
    (lines : List (List ℝ)) :
    sampleLoop ports fmt m k vals lines = .error e := by
  rw [sampleLoop, hfill]

theorem sampleLoop_done {ports : ℕ} {fmt : String} {vals : List (ℝ × ℝ)} {k k1 : ℕ}
    {m m1 : ℕ → ℕ → ℂ} (hfill : fillLine ports fmt vals k m = .ok (m1, k1))
    (hbr : ports < k1 / ports + 1) (hcnt : k1 = ports ^ 2) (lines : List (List ℝ)) :
    sampleLoop ports fmt m k vals lines = .ok (m1, lines) := by
  rw [sampleLoop, hfill]
  dsimp only
  rw [if_pos hbr, if_pos hcnt]

theorem sampleLoop_badcount {ports : ℕ} {fmt : String} {vals : List (ℝ × ℝ)} {k k1 : ℕ}
    {m m1 : ℕ → ℕ → ℂ} (hfill : fillLine ports fmt vals k m = .ok (m1, k1))
    (hbr : ports < k1 / ports + 1) (hcnt : k1 ≠ ports ^ 2) (lines : List (List ℝ)) :
    sampleLoop ports fmt m k vals lines = .error .assertFailed := by
  rw [sampleLoop, hfill]
  dsimp only
  rw [if_pos hbr, if_neg hcnt]

theorem sampleLoop_eof {ports : ℕ} {fmt : String} {vals : List (ℝ × ℝ)} {k k1 : ℕ}
    {m m1 : ℕ → ℕ → ℂ} (hfill : fillLine ports fmt vals k m = .ok (m1, k1))
    (hbr : ¬ ports < k1 / ports + 1) :
    sampleLoop ports fmt m k vals [] = .error .eof := by
  rw [sampleLoop, hfill]
  dsimp only
  rw [if_neg hbr]

theorem sampleLoop_odd {ports : ℕ} {fmt : String} {vals : List (ℝ × ℝ)} {k k1 : ℕ}
    {m m1 : ℕ → ℕ → ℂ} (hfill : fillLine ports fmt vals k m = .ok (m1, k1))
    (hbr : ¬ ports < k1 / ports + 1) {l : List ℝ} (hodd : l.length % 2 ≠ 0)
    (rest : List (List ℝ)) :
    sampleLoop ports fmt m k vals (l :: rest) =
      .error (.structural "less ports than reported in the file extension") := by
  rw [sampleLoop, hfill]
  dsimp only
  rw [if_neg hbr, if_pos hodd]

theorem sampleLoop_cont {ports : ℕ} {fmt : String} {vals : List (ℝ × ℝ)} {k k1 : ℕ}
    {m m1 : ℕ → ℕ → ℂ} (hfill : fillLine ports fmt vals k m = .ok (m1, k1))
    (hbr : ¬ ports < k1 / ports + 1) {l : List ℝ} (heven : ¬ l.length % 2 ≠ 0)
    (rest : List (List ℝ)) :
    sampleLoop ports fmt m k vals (l :: rest) =
      sampleLoop ports fmt m1 k1 (chunkPairs l) rest := by
  rw [sampleLoop, hfill]
  dsimp only
  rw [if_neg hbr, if_neg heven]

/-- A successful record loop never looks past the lines it consumed: the same
run succeeds, with the same matrix, on any extension of the remaining
stream. -/
theorem sampleLoop_stream (ports : ℕ) (fmt : String) :
    ∀ (lines : List (List ℝ)) (m : ℕ → ℕ → ℂ) (k : ℕ) (vals : List (ℝ × ℝ))
      (m' : ℕ → ℕ → ℂ) (rem : List (List ℝ)),
      sampleLoop ports fmt m k vals lines = .ok (m', rem) →
      ∃ pre, lines = pre ++ rem ∧
        ∀ ext, sampleLoop ports fmt m k vals (pre ++ ext) = .ok (m', ext) := by
  intro lines
  induction lines with
  | nil =>
      intro m k vals m' rem h
      rcases hfill : fillLine ports fmt vals k m with e | ⟨m1, k1⟩
      · rw [sampleLoop_fill_error hfill] at h; exact absurd h (by simp)
      · by_cases hbr : ports < k1 / ports + 1
        · by_cases hcnt : k1 = ports ^ 2
          · rw [sampleLoop_done hfill hbr hcnt] at h
            simp at h
            refine ⟨[], by simp [h.2], ?_⟩
            intro ext
            rw [List.nil_append, sampleLoop_done hfill hbr hcnt, h.1]
          · rw [sampleLoop_badcount hfill hbr hcnt] at h; exact absurd h (by simp)
        · rw [sampleLoop_eof hfill hbr] at h; exact absurd h (by simp)
  | cons l rest ih =>
      intro m k vals m' rem h
      rcases hfill : fillLine ports fmt vals k m with e | ⟨m1, k1⟩
      · rw [sampleLoop_fill_error hfill] at h; exact absurd h (by simp)
      · by_cases hbr : ports < k1 / ports + 1
        · by_cases hcnt : k1 = ports ^ 2
          · rw [sampleLoop_done hfill hbr hcnt] at h
            simp at h
            refine ⟨[], by simp [h.2], ?_⟩
            intro ext
            rw [List.nil_append, sampleLoop_done hfill hbr hcnt, h.1]
          · rw [sampleLoop_badcount hfill hbr hcnt] at h; exact absurd h (by simp)
        · by_cases hpar : l.length % 2 ≠ 0
          · rw [sampleLoop_odd hfill hbr hpar] at h; exact absurd h (by simp)
          · rw [sampleLoop_cont hfill hbr hpar] at h
            obtain ⟨pre', hpre', hstr⟩ := ih m1 k1 (chunkPairs l) m' rem h
            refine ⟨l :: pre', by simp [hpre'], ?_⟩
            intro ext
            rw [List.cons_append, sampleLoop_cont hfill hbr hpar]
            exact hstr ext

/-- Success and contents of the record loop on a chunked record: the current
pairs `c` plus the pairs of the continuation chunks `cs` hold exactly the
remaining `ports² − k` values, each continuation chunk being nonempty. -/
theorem sampleLoop_chunks (ports : ℕ) (fmt : String) (hP : 0 < ports) :
    ∀ (cs : List (List (ℝ × ℝ))) (c : List (ℝ × ℝ)) (k : ℕ) (m : ℕ → ℕ → ℂ)
      (rest : List (List ℝ)),
      k + (c ++ cs.flatten).length = ports ^ 2 →
      (∀ ch ∈ cs, ch ≠ []) →
      ∃ m', sampleLoop ports fmt m k c (cs.map flatPairs ++ rest) = .ok (m', rest) ∧
        ∀ i j, i < ports → j < ports →
          m' i j =
            if k ≤ invIdx ports i j then
              decodePair fmt ((c ++ cs.flatten).getD (invIdx ports i j - k) (0, 0)).1
                ((c ++ cs.flatten).getD (invIdx ports i j - k) (0, 0)).2
            else m i j := by
  intro cs
  induction cs with
  | nil =>
      intro c k m rest hsum hne
      rw [List.flatten_nil, List.append_nil] at hsum
      obtain ⟨m', hrun, hchar⟩ := fillLine_ok ports fmt c k m (by omega)
      have hbr : ports < (k + c.length) / ports + 1 := by
        rw [hsum, pow_two, Nat.mul_div_cancel_left ports hP]
        omega
      refine ⟨m', ?_, ?_⟩
      · rw [List.map_nil, List.nil_append]
        exact sampleLoop_done hrun hbr hsum rest
      · intro i j hi hj
        rw [hchar i j hi hj]
        by_cases hcase : k ≤ invIdx ports i j
        · rw [if_pos ⟨hcase, by have := invIdx_lt hi hj; omega⟩,
            List.flatten_nil, List.append_nil, if_pos hcase]
        · rw [if_neg (fun hc => hcase hc.1), if_neg hcase]
  | cons c1 cs' ih =>
      intro c k m rest hsum hne
      have hc1len : 0 < c1.length := List.length_pos.mpr (hne c1 (by simp))
      have hlen : c.length + (c1.length + cs'.flatten.length) =
          (c ++ (c1 :: cs').flatten).length := by
        simp
      have hfit : k + c.length ≤ ports ^ 2 := by omega
      obtain ⟨m1, hrun, hchar1⟩ := fillLine_ok ports fmt c k m hfit
      have hk1lt : k + c.length < ports ^ 2 := by omega
      have hbr : ¬ ports < (k + c.length) / ports + 1 := by
        have : (k + c.length) / ports < ports := by
          rw [Nat.div_lt_iff_lt_mul hP, ← pow_two]
          exact hk1lt
        omega
      have heven : ¬ ((flatPairs c1).length % 2 ≠ 0) := by
        rw [flatPairs_length]
        omega
      have hsum' : (k + c.length) + (c1 ++ cs'.flatten).length = ports ^ 2 := by
        have : (c1 ++ cs'.flatten).length = c1.length + cs'.flatten.length := by simp
        omega
      obtain ⟨m', hrun', hchar'⟩ :=
        ih c1 (k + c.length) m1 rest hsum' (fun ch h => hne ch (by simp [h]))
      refine ⟨m', ?_, ?_⟩
      · rw [List.map_cons, List.cons_append, sampleLoop_cont hrun hbr heven,
          chunkPairs_flatPairs]
        exact hrun'
      · intro i j hi hj
        have hq := hchar' i j hi hj
        have hqlt : invIdx ports i j < ports ^ 2 := invIdx_lt hi hj
        set q := invIdx ports i j with hqdef
        rw [hq]
        have hflat : (c ++ (c1 :: cs').flatten) = c ++ (c1 ++ cs'.flatten) := rfl
        by_cases h1 : k + c.length ≤ q
        · rw [if_pos h1, if_pos (by omega), hflat,
            List.getD_append_right c (c1 ++ cs'.flatten) (0, 0) (q - k) (by omega)]
          have harith : q - k - c.length = q - (k + c.length) := by omega
          rw [harith]
        · rw [if_neg h1, hchar1 i j hi hj]
          by_cases h2 : k ≤ q
          · rw [if_pos ⟨h2, by omega⟩, if_pos h2, hflat,
              List.getD_append c (c1 ++ cs'.flatten) (0, 0) (q - k) (by omega)]
          · rw [if_neg (fun hc => h2 hc.1), if_neg h2]

theorem parseSample_nil (ports : ℕ) (fmt : String) :
    parseSample ports fmt [] = .error .eof := rfl

theorem parseSample_cons_eq (ports : ℕ) (fmt : String) (f : ℝ) (vals : List ℝ)
    (rest : List (List ℝ)) (heven : ¬ vals.length % 2 ≠ 0) :
    parseSample ports fmt ((f :: vals) :: rest) =
      match sampleLoop ports fmt initMat 0 (chunkPairs vals) rest with
      | .error e => .error e
      | .ok (m, rem) => .ok (f, m, rem) := by
  rw [parseSample]
  rw [if_neg heven]

theorem parseSample_odd_line (ports : ℕ) (fmt : String) (f : ℝ) (vals : List ℝ)
    (rest : List (List ℝ)) (hodd : vals.length % 2 ≠ 0) :
    parseSample ports fmt ((f :: vals) :: rest) = .error .assertFailed := by
  rw [parseSample]
  rw [if_pos hodd]

/-- A successful record parse consumes at least the frequency line. -/
theorem parseSample_rest_length {ports : ℕ} {fmt : String} {lines : List (List ℝ)}
    {f : ℝ} {M : ℕ → ℕ → ℂ} {rem : List (List ℝ)}
    (h : parseSample ports fmt lines = .ok (f, M, rem)) :
    rem.length < lines.length := by
  cases lines with
  | nil => rw [parseSample_nil] at h; exact absurd h (by simp)
  | cons l rest =>
      cases l with
      | nil => exact absurd h (by rw [parseSample]; simp)
      | cons f' vals =>
          by_cases hpar : vals.length % 2 ≠ 0
          · rw [parseSample_odd_line _ _ _ _ _ hpar] at h
            exact absurd h (by simp)
          · rw [parseSample_cons_eq _ _ _ _ _ hpar] at h
            rcases hsl : sampleLoop ports fmt initMat 0 (chunkPairs vals) rest with e | ⟨m2, rem2⟩
            · rw [hsl] at h; exact absurd h (by simp)
            · rw [hsl] at h
              simp at h
              obtain ⟨pre, hpre, -⟩ :=
                sampleLoop_stream ports fmt rest initMat 0 (chunkPairs vals) m2 rem2 hsl
              have : rem2.length ≤ rest.length := by
                rw [hpre]
                simp
              rw [← h.2.2]
              simp
              omega

/-- The lines written for one sample parse back, on any stream extension, to
the same frequency and to a matrix whose meaningful entries are the
decode-of-encode of the original entries. -/
theorem parseSample_sampleLines (ports : ℕ) (fmt : String) (hP : 0 < ports)
    (f : ℝ) (m : ℕ → ℕ → ℂ) :
    ∃ M, (∀ ext, parseSample ports fmt (sampleLines ports fmt f m ++ ext) = .ok (f, M, ext)) ∧
      ∀ i j, i < ports → j < ports →
        M i j = decodePair fmt (encodePair fmt (m i j)).1 (encodePair fmt (m i j)).2 := by
  have hflen : (flattenMat ports fmt m).length = ports ^ 2 := by
    simp [flattenMat]
  have hpos : 0 < (flattenMat ports fmt m).length := by
    rw [hflen]
    positivity
  obtain ⟨e, es, hes⟩ : ∃ e es, flattenMat ports fmt m = e :: es := by
    cases hF : flattenMat ports fmt m with
    | nil => rw [hF] at hpos; simp at hpos
    | cons e es => exact ⟨e, es, rfl⟩
  set w := wrapSize ports with hw
  set c0 : List (ℝ × ℝ) := e :: es.take (w - 1) with hc0
  set cs : List (List (ℝ × ℝ)) := chunkList w (es.drop (w - 1)) with hcs
  have hchunk : chunkList w (flattenMat ports fmt m) = c0 :: cs := by
    rw [hes, chunkList, hc0, hcs]
  have hflatten : c0 ++ cs.flatten = flattenMat ports fmt m := by
    rw [hcs, chunkList_flatten, hc0, List.cons_append, List.take_append_drop, ← hes]
  have hsl : sampleLines ports fmt f m = (f :: flatPairs c0) :: cs.map flatPairs := by
    rw [sampleLines, hchunk]
  obtain ⟨M, hrunM, hcharM⟩ := sampleLoop_chunks ports fmt hP cs c0 0 initMat []
    (by rw [hflatten]; simpa using hflen)
    (fun ch h => chunkList_ne_nil w (es.drop (w - 1)) ch (hcs ▸ h))
  obtain ⟨pre, hpre, hstr⟩ :=
    sampleLoop_stream ports fmt (cs.map flatPairs ++ []) initMat 0 c0 M [] hrunM
  have hpre' : pre = cs.map flatPairs := by
    have h2 := hpre.symm
    simpa using h2
  refine ⟨M, ?_, ?_⟩
  · intro ext
    rw [hsl, List.cons_append,
      parseSample_cons_eq _ _ _ _ _ (by rw [flatPairs_length]; omega)]
    have hrun : sampleLoop ports fmt initMat 0 (chunkPairs (flatPairs c0))
        (cs.map flatPairs ++ ext) = .ok (M, ext) := by
      rw [chunkPairs_flatPairs, ← hpre']
      exact hstr ext
    rw [hrun]
  · intro i j hi hj
    have hchar := hcharM i j hi hj
    rw [if_pos (Nat.zero_le _)] at hchar
    have hq : invIdx ports i j < ports ^ 2 := invIdx_lt hi hj
    have hgd : (flattenMat ports fmt m).getD (invIdx ports i j) (0, 0) =
        encodePair fmt (m i j) := by
      rw [flattenMat, List.getD_eq_getElem _ _ (by simpa using hq), List.getElem_map,
        List.getElem_range, posIdx_invIdx hi hj]
    rw [hchar, hflatten, Nat.sub_zero, hgd]

/-- Modelled-from-spec inversion: for each supported numeric format, decoding
the two written numbers recovers the matrix entry (for `DB`, provided the
entry is nonzero — a zero entry has no finite dB magnitude). -/
theorem decodePair_encodePair (fmt : String) (z : ℂ) (hdb : fmt = "DB" → z ≠ 0) :
    decodePair fmt (encodePair fmt z).1 (encodePair fmt z).2 = z := by
  have hang : ∀ a : ℝ, ((a * 180 / π) * π / 180 : ℝ) = a := by
    intro a
    field_simp
  by_cases hri : fmt = "RI"
  · rw [decodePair, encodePair, if_pos hri, if_pos hri]
    exact Complex.re_add_im z
  · by_cases hdbf : fmt = "DB"
    · have hz : z ≠ 0 := hdb hdbf
      have habs : (0 : ℝ) < Complex.abs z := Complex.abs.pos hz
      rw [decodePair, encodePair, if_neg hri, if_pos hdbf, if_neg hri, if_pos hdbf]
      have hlog10 : Real.log 10 ≠ 0 :=
        ne_of_gt (Real.log_pos (by norm_num))
      have hmag : (10 : ℝ) ^ ((20 * Real.log (Complex.abs z) / Real.log 10) / 20) =
          Complex.abs z := by
        rw [show (20 * Real.log (Complex.abs z) / Real.log 10) / 20 =
            Real.log (Complex.abs z) / Real.log 10 by ring]
        rw [Real.rpow_def_of_pos (by norm_num : (0:ℝ) < 10)]
        rw [show Real.log 10 * (Real.log (Complex.abs z) / Real.log 10) =
            Real.log (Complex.abs z) by field_simp]
        exact Real.exp_log habs
      rw [hmag, hang, mul_comm Complex.I _]
      exact Complex.abs_mul_exp_arg_mul_I z
    · rw [decodePair, encodePair, if_neg hri, if_neg hdbf, if_neg hri, if_neg hdbf]
      rw [hang, mul_comm Complex.I _]
      exact Complex.abs_mul_exp_arg_mul_I z

/-- The read loop over a stream of complete record groups followed by a
remainder on which the record parse signals end-of-stream: every completed
record is returned, the remainder contributes nothing, no error escapes. -/
theorem readSamplesGo_groups (ports : ℕ) (fmt : String) :
    ∀ (recs : List ((List (List ℝ)) × (ℝ × (ℕ → ℕ → ℂ)))) (extra : List (List ℝ))
      (fuel : ℕ),
      ((recs.map Prod.fst).flatten ++ extra).length < fuel →
      (∀ gr ∈ recs, ∀ ext, parseSample ports fmt (gr.1 ++ ext) = .ok (gr.2.1, gr.2.2, ext)) →
      parseSample ports fmt extra = .error .eof →
      readSamplesGo ports fmt fuel ((recs.map Prod.fst).flatten ++ extra) =
        .ok (recs.map Prod.snd) := by
  intro recs
  induction recs with
  | nil =>
      intro extra fuel hfuel hstream heofEnd
      simp only [List.map_nil, List.flatten_nil, List.nil_append] at hfuel ⊢
      cases fuel with
      | zero => omega
      | succ n => rw [readSamplesGo, heofEnd]
  | cons gr recs' ih =>
      intro extra fuel hfuel hstream heofEnd
      have hshape : ((gr :: recs').map Prod.fst).flatten ++ extra =
          gr.1 ++ ((recs'.map Prod.fst).flatten ++ extra) := by
        simp
      have hrec := hstream gr (by simp) ((recs'.map Prod.fst).flatten ++ extra)
      have hgr_ne : 0 < gr.1.length := by
        have hlt := parseSample_rest_length (hstream gr (by simp) [])
        simp at hlt
        omega
      cases fuel with
      | zero => simp at hfuel
      | succ n =>
          rw [hshape, readSamplesGo, hrec]
          have hn : ((recs'.map Prod.fst).flatten ++ extra).length < n := by
            rw [hshape] at hfuel
            simp only [List.length_append] at hfuel ⊢
            omega
          dsimp only
          rw [ih extra n hn (fun g h ext => hstream g (by simp [h]) ext) heofEnd]
          rfl

/-- **C5** — When the stream consists of complete record groups followed by a
trailing remainder on which record parsing runs out of lines (`EOFError` while
the matrix is only partially collected), the read loop returns exactly the
frequency points of the completed records, silently dropping the partial
trailing record and raising no error. -/
theorem read_drops_partial_trailing_record (ports : ℕ) (fmt : String)
    (recs : List ((List (List ℝ)) × (ℝ × (ℕ → ℕ → ℂ)))) (extra : List (List ℝ))
    (hstream : ∀ gr ∈ recs, ∀ ext,
      parseSample ports fmt (gr.1 ++ ext) = .ok (gr.2.1, gr.2.2, ext))
    (heofEnd : parseSample ports fmt extra = .error .eof) :
    readSamples ports fmt ((recs.map Prod.fst).flatten ++ extra) =
      .ok (recs.map Prod.snd) := by
  rw [readSamples]
  exact readSamplesGo_groups ports fmt recs extra _ (by omega) hstream heofEnd

/-- The matrix read back from the complete P = 1 record `[1.0, 0.5, 0.5]`. -/
noncomputable def c5Mat : ℕ → ℕ → ℂ :=
  mupd initMat (posIdx 1 0) (decodePair "RI" 0.5 0.5)

/-- Witness for C5: one complete 1-port record followed by a partial record
holding only a frequency; the partial record is dropped without error. -/
theorem read_drops_partial_trailing_record_witness :
    readSamples 1 "RI" [[1, 0.5, 0.5], [2]] = .ok [(1, c5Mat)] := by
  have h := read_drops_partial_trailing_record 1 "RI"
    [([[1, 0.5, 0.5]], (1, c5Mat))] [[2]]
    (by
      intro gr hgr ext
      simp only [List.mem_singleton] at hgr
      subst hgr
      show parseSample 1 "RI" ([1, 0.5, 0.5] :: ext) = .ok (1, c5Mat, ext)
      rw [show ([1, 0.5, 0.5] : List ℝ) = (1 : ℝ) :: [0.5, 0.5] from rfl,
        parseSample_cons_eq 1 "RI" 1 [0.5, 0.5] ext (by simp)]
      have hfill : fillLine 1 "RI" (chunkPairs [0.5, 0.5]) 0 initMat = .ok (c5Mat, 1) := rfl
      rw [sampleLoop_done hfill (by norm_num) (by norm_num) ext])
    rfl
  simpa using h

/-- **C9** — While a frequency record is still incomplete (the fill of the
current line succeeded and `port2` has not passed the port count), a
continuation line carrying an odd number of numeric tokens makes the record
parse fail with the structural "less ports than reported in the file
extension" error instead of continuing. -/
theorem continuation_odd_token_count_fails (ports : ℕ) (fmt : String)
    (m : ℕ → ℕ → ℂ) (k : ℕ) (vals : List (ℝ × ℝ)) (l : List ℝ) (rest : List (List ℝ))
    (hfill : ∃ m1 k1, fillLine ports fmt vals k m = .ok (m1, k1) ∧ k1 / ports + 1 ≤ ports)
    (hodd : l.length % 2 = 1) :
    sampleLoop ports fmt m k vals (l :: rest) =
      .error (.structural "less ports than reported in the file extension") := by
  obtain ⟨m1, k1, hfill1, hport⟩ := hfill
  exact sampleLoop_odd hfill1 (by omega) (by omega) rest

/-- Witness for C9: a 2-port record whose first line supplied one pair and
whose continuation line `[3.0]` has an odd token count. -/
theorem continuation_odd_token_count_fails_witness :
    sampleLoop 2 "RI" initMat 0 [(1, 0)] [[3]] =
      .error (.structural "less ports than reported in the file extension") :=
  continuation_odd_token_count_fails 2 "RI" initMat 0 [(1, 0)] [3] []
    ⟨mupd initMat (posIdx 2 0) (decodePair "RI" 1 0), 1, rfl, by decide⟩
    (by decide)

theorem chunkPairs_length : ∀ l : List ℝ, (chunkPairs l).length = l.length / 2
  | [] => rfl
  | [x] => by
      have h : chunkPairs [x] = [] := rfl
      rw [h]
      simp
  | x :: y :: rest => by
      rw [chunkPairs]
      rw [List.length_cons, chunkPairs_length rest]
      simp
      omega

/-- A record carried on a single data line: success and fill positions. -/
theorem parseSample_single_line (ports : ℕ) (fmt : String) (f : ℝ) (vals : List ℝ)
    (rest : List (List ℝ)) (hP : 0 < ports) (hlen : vals.length = 2 * ports ^ 2) :
    ∃ M, parseSample ports fmt ((f :: vals) :: rest) = .ok (f, M, rest) ∧
      ∀ i j, i < ports → j < ports →
        M i j =
          decodePair fmt ((chunkPairs vals).getD (invIdx ports i j) (0, 0)).1
            ((chunkPairs vals).getD (invIdx ports i j) (0, 0)).2 := by
  have hcp : (chunkPairs vals).length = ports ^ 2 := by
    rw [chunkPairs_length, hlen]
    omega
  obtain ⟨M, hrun, hchar⟩ := sampleLoop_chunks ports fmt hP [] (chunkPairs vals) 0
    initMat rest (by simpa using hcp) (by simp)
  rw [List.map_nil, List.nil_append] at hrun
  refine ⟨M, ?_, ?_⟩
  · rw [parseSample_cons_eq _ _ _ _ _ (by omega), hrun]
  · intro i j hi hj
    have h := hchar i j hi hj
    rw [if_pos (Nat.zero_le _)] at h
    simpa using h

/-- **C4** — Matrix fill order of the reader.  General part: for a record on a
single data line (frequency followed by all `ports²` value pairs), entry
(i, j) of the parsed matrix is the decode of pair number `j·ports + i` when
the declared port count is exactly 2 (column-major fill) and of pair number
`i·ports + j` for every other port count (row-major fill).  Concrete part:
for a declared 2-port file with option line `# GHZ S MA R 50` and data line
`1.0 1 0 0 -90 0 -90 1 0`, the reader produces frequency 1e9 Hz and the
matrix `[[1∠0°, 0∠-90°], [0∠-90°, 1∠0°]]`, numerically `[[1, 0], [0, 1]]`. -/
theorem reader_fill_order (ports : ℕ) (fmt : String) (f : ℝ) (vals : List ℝ)
    (rest : List (List ℝ)) (hP : 0 < ports) (hlen : vals.length = 2 * ports ^ 2) :
    (∃ M, parseSample ports fmt ((f :: vals) :: rest) = .ok (f, M, rest) ∧
      ∀ i j, i < ports → j < ports →
        M i j =
          decodePair fmt
            ((chunkPairs vals).getD (if ports = 2 then j * ports + i else i * ports + j)
              (0, 0)).1
            ((chunkPairs vals).getD (if ports = 2 then j * ports + i else i * ports + j)
              (0, 0)).2) ∧
    (∃ M2, readModel 2 "# GHZ S MA R 50" [[1, 1, 0, 0, -90, 0, -90, 1, 0]] =
        .ok [((1e9 : ℝ), M2)] ∧
      M2 0 0 = 1 ∧ M2 0 1 = 0 ∧ M2 1 0 = 0 ∧ M2 1 1 = 1) := by
  constructor
  · obtain ⟨M, hrun, hchar⟩ := parseSample_single_line ports fmt f vals rest hP hlen
    exact ⟨M, hrun, fun i j hi hj => by
      rw [hchar i j hi hj]
      rfl⟩
  · have hopt : parseOptionLine "# GHZ S MA R 50" =
        .ok ⟨1e9, PType.scattering, "MA", ((50 : ℕ) : ℝ)⟩ := rfl
    obtain ⟨M2, hrun, hchar⟩ := parseSample_single_line 2 "MA" 1
      [1, 0, 0, -90, 0, -90, 1, 0] [] (by norm_num) (by simp)
    have hread : readSamples 2 "MA" [[1, 1, 0, 0, -90, 0, -90, 1, 0]] =
        .ok [((1 : ℝ), M2)] := by
      rw [readSamples, readSamplesGo]
      rw [show (([1, 1, 0, 0, -90, 0, -90, 1, 0] : List ℝ) ::
          ([] : List (List ℝ))) =
        ((1 : ℝ) :: [1, 0, 0, -90, 0, -90, 1, 0]) :: ([] : List (List ℝ)) from rfl]
      rw [hrun]
      rfl
    refine ⟨M2, ?_, ?_, ?_, ?_, ?_⟩
    · rw [readModel, hopt]
      dsimp only
      rw [hread]
      dsimp only
      norm_num
    · rw [hchar 0 0 (by norm_num) (by norm_num)]
      show decodePair "MA" 1 0 = 1
      rw [decodePair, if_neg (by decide), if_neg (by decide)]
      norm_num
    · rw [hchar 0 1 (by norm_num) (by norm_num)]
      show decodePair "MA" 0 (-90) = 0
      rw [decodePair, if_neg (by decide), if_neg (by decide)]
      norm_num
    · rw [hchar 1 0 (by norm_num) (by norm_num)]
      show decodePair "MA" 0 (-90) = 0
      rw [decodePair, if_neg (by decide), if_neg (by decide)]
      norm_num
    · rw [hchar 1 1 (by norm_num) (by norm_num)]
      show decodePair "MA" 1 0 = 1
      rw [decodePair, if_neg (by decide), if_neg (by decide)]
      norm_num

/-- Witness for C4 at a 1-port single-line record. -/
theorem reader_fill_order_witness :
    (∃ M, parseSample 1 "RI" (((1 : ℝ) :: [2, 3]) :: []) = .ok (1, M, []) ∧
      ∀ i j, i < 1 → j < 1 →
        M i j =
          decodePair "RI"
            ((chunkPairs [2, 3]).getD (if 1 = 2 then j * 1 + i else i * 1 + j) (0, 0)).1
            ((chunkPairs [2, 3]).getD (if 1 = 2 then j * 1 + i else i * 1 + j) (0, 0)).2) ∧
    (∃ M2, readModel 2 "# GHZ S MA R 50" [[1, 1, 0, 0, -90, 0, -90, 1, 0]] =
        .ok [((1e9 : ℝ), M2)] ∧
      M2 0 0 = 1 ∧ M2 0 1 = 0 ∧ M2 1 0 = 0 ∧ M2 1 1 = 1) :=
  reader_fill_order 1 "RI" 1 [2, 3] [] (by norm_num) (by simp)

/-! ### Round-trip: tokenization of the written option line -/

theorem wsSplit_token (t : List Char) (ht : ∀ c ∈ t, c.isWhitespace = false) :
    ∀ rest acc, wsSplit (t ++ rest) acc = wsSplit rest (t.reverse ++ acc) := by
  induction t with
  | nil => intro rest acc; simp
  | cons c t' ih =>
      intro rest acc
      have hc : c.isWhitespace = false := ht c (by simp)
      rw [List.cons_append, wsSplit, hc]
      rw [if_neg (by simp)]
      rw [ih (fun x hx => ht x (by simp [hx])) rest (c :: acc)]
      simp

theorem wsSplit_nil_done (acc : List Char) (h : acc ≠ []) :
    wsSplit [] acc = [acc.reverse] := by
  rw [wsSplit, if_neg (by simpa using h)]

theorem wsSplit_ws (c : Char) (hc : c.isWhitespace = true) (rest acc : List Char) :
    wsSplit (c :: rest) acc =
      if acc.isEmpty then wsSplit rest [] else acc.reverse :: wsSplit rest [] := by
  rw [wsSplit, hc, if_pos rfl]

theorem wsSplit_ws_nilacc (c : Char) (hc : c.isWhitespace = true) (rest : List Char) :
    wsSplit (c :: rest) [] = wsSplit rest [] := by
  rw [wsSplit_ws c hc rest []]
  simp

theorem wsSplit_token_ws (t : List Char) (c : Char) (rest : List Char)
    (ht : t ≠ []) (htc : ∀ x ∈ t, x.isWhitespace = false) (hc : c.isWhitespace = true) :
    wsSplit (t ++ c :: rest) [] = t :: wsSplit rest [] := by
  rw [wsSplit_token t htc (c :: rest) [], wsSplit_ws c hc rest (t.reverse ++ [])]
  rw [if_neg (by simpa using ht)]
  simp

theorem wsSplit_last_token (t : List Char) (ht : t ≠ [])
    (htc : ∀ x ∈ t, x.isWhitespace = false) :
    wsSplit t [] = [t] := by
  have h := wsSplit_token t htc [] []
  rw [List.append_nil] at h
  rw [h, wsSplit_nil_done _ (by simpa using ht)]
  simp

/-- Tokenisation of the option line `write` emits (for the three supported
format selectors). -/
theorem optTokens_writeOptionLine (fmt : String) (z0str : String)
    (hfmt : fmt = "RI" ∨ fmt = "MA" ∨ fmt = "DB")
    (hne : z0str.toList.map Char.toUpper ≠ [])
    (hws : ∀ c ∈ z0str.toList.map Char.toUpper, c.isWhitespace = false) :
    optTokens (writeOptionLine fmt z0str) =
      ["HZ", "S", fmt, "R", String.mk (z0str.toList.map Char.toUpper)] := by
  rcases hfmt with h | h | h <;> subst h
  · have e1 : optTokens (writeOptionLine "RI" z0str) =
        (wsSplit (' ' :: (['H','Z'] ++ (' ' :: (['S'] ++ (' ' :: (['R','I'] ++
          (' ' :: (['R'] ++ (' ' :: (z0str.toList.map Char.toUpper))))))))))
          []).map (fun cs => String.mk cs) := rfl
    rw [e1, wsSplit_ws_nilacc ' ' (by decide),
      wsSplit_token_ws ['H','Z'] ' ' _ (by simp) (by decide) (by decide),
      wsSplit_token_ws ['S'] ' ' _ (by simp) (by decide) (by decide),
      wsSplit_token_ws ['R','I'] ' ' _ (by simp) (by decide) (by decide),
      wsSplit_token_ws ['R'] ' ' _ (by simp) (by decide) (by decide),
      wsSplit_last_token _ hne hws]
    rfl
  · have e1 : optTokens (writeOptionLine "MA" z0str) =
        (wsSplit (' ' :: (['H','Z'] ++ (' ' :: (['S'] ++ (' ' :: (['M','A'] ++
          (' ' :: (['R'] ++ (' ' :: (z0str.toList.map Char.toUpper))))))))))
          []).map (fun cs => String.mk cs) := rfl
    rw [e1, wsSplit_ws_nilacc ' ' (by decide),
      wsSplit_token_ws ['H','Z'] ' ' _ (by simp) (by decide) (by decide),
      wsSplit_token_ws ['S'] ' ' _ (by simp) (by decide) (by decide),
      wsSplit_token_ws ['M','A'] ' ' _ (by simp) (by decide) (by decide),
      wsSplit_token_ws ['R'] ' ' _ (by simp) (by decide) (by decide),
      wsSplit_last_token _ hne hws]
    rfl
  · have e1 : optTokens (writeOptionLine "DB" z0str) =
        (wsSplit (' ' :: (['H','Z'] ++ (' ' :: (['S'] ++ (' ' :: (['D','B'] ++
          (' ' :: (['R'] ++ (' ' :: (z0str.toList.map Char.toUpper))))))))))
          []).map (fun cs => String.mk cs) := rfl
    rw [e1, wsSplit_ws_nilacc ' ' (by decide),
      wsSplit_token_ws ['H','Z'] ' ' _ (by simp) (by decide) (by decide),
      wsSplit_token_ws ['S'] ' ' _ (by simp) (by decide) (by decide),
      wsSplit_token_ws ['D','B'] ' ' _ (by simp) (by decide) (by decide),
      wsSplit_token_ws ['R'] ' ' _ (by simp) (by decide) (by decide),
      wsSplit_last_token _ hne hws]
    rfl

/-- The option line `write` emits parses back to unit 1 Hz, scattering type,
the same format selector, and the `float()` value of the impedance token. -/
theorem parseOptionLine_writeOptionLine (fmt z0str : String) (w : ℝ)
    (hfmt : fmt = "RI" ∨ fmt = "MA" ∨ fmt = "DB")
    (hne : z0str.toList.map Char.toUpper ≠ [])
    (hws : ∀ c ∈ z0str.toList.map Char.toUpper, c.isWhitespace = false)
    (hz0 : parseFloat (String.mk (z0str.toList.map Char.toUpper)) = some w) :
    parseOptionLine (writeOptionLine fmt z0str) = .ok ⟨1, PType.scattering, fmt, w⟩ := by
  have htok := optTokens_writeOptionLine fmt z0str hfmt hne hws
  have hpo : parseOptions ["HZ", "S", fmt, "R",
      String.mk (z0str.toList.map Char.toUpper)] defaultOptions =
      .ok ⟨1, PType.scattering, fmt, w⟩ := by
    rcases hfmt with h | h | h <;> subst h
    · have e2 : parseOptions ["HZ", "S", "RI", "R",
          String.mk (z0str.toList.map Char.toUpper)] defaultOptions =
          (match parseFloat (String.mk (z0str.toList.map Char.toUpper)) with
           | none => Except.error (TSErr.valueError "could not convert string to float")
           | some x => parseOptions [] ⟨1, PType.scattering, "RI", x⟩) := rfl
      rw [e2, hz0]
      rfl
    · have e2 : parseOptions ["HZ", "S", "MA", "R",
          String.mk (z0str.toList.map Char.toUpper)] defaultOptions =
          (match parseFloat (String.mk (z0str.toList.map Char.toUpper)) with
           | none => Except.error (TSErr.valueError "could not convert string to float")
           | some x => parseOptions [] ⟨1, PType.scattering, "MA", x⟩) := rfl
      rw [e2, hz0]
      rfl
    · have e2 : parseOptions ["HZ", "S", "DB", "R",
          String.mk (z0str.toList.map Char.toUpper)] defaultOptions =
          (match parseFloat (String.mk (z0str.toList.map Char.toUpper)) with
           | none => Except.error (TSErr.valueError "could not convert string to float")
           | some x => parseOptions [] ⟨1, PType.scattering, "DB", x⟩) := rfl
      rw [e2, hz0]
      rfl
  rw [parseOptionLine, htok, hpo]
  rfl

theorem sampleLines_length_pos (ports : ℕ) (fmt : String) (f : ℝ) (m : ℕ → ℕ → ℂ) :
    0 < (sampleLines ports fmt f m).length := by
  cases E : chunkList (wrapSize ports) (flattenMat ports fmt m) with
  | nil => rw [sampleLines, E]; simp
  | cons c cs => rw [sampleLines, E]; simp

/-- The read loop recovers, from the lines the writer emits, one output pair
per written sample: the same frequency and the decode-of-encode of every
meaningful matrix entry. -/
theorem readSamplesGo_writeLines (ports : ℕ) (fmt : String) (hP : 0 < ports) :
    ∀ (pairs : List (ℝ × (ℕ → ℕ → ℂ))) (fuel : ℕ),
      (pairs.flatMap (fun fm => sampleLines ports fmt fm.1 fm.2)).length < fuel →
      ∃ out, readSamplesGo ports fmt fuel
          (pairs.flatMap (fun fm => sampleLines ports fmt fm.1 fm.2)) = .ok out ∧
        out.length = pairs.length ∧
        ∀ n i j, n < pairs.length → i < ports → j < ports →
          (out.getD n (0, initMat)).1 = (pairs.getD n (0, initMat)).1 ∧
          (out.getD n (0, initMat)).2 i j =
            decodePair fmt (encodePair fmt ((pairs.getD n (0, initMat)).2 i j)).1
              (encodePair fmt ((pairs.getD n (0, initMat)).2 i j)).2 := by
  intro pairs
  induction pairs with
  | nil =>
      intro fuel hfuel
      simp only [List.flatMap_nil] at hfuel ⊢
      cases fuel with
      | zero => omega
      | succ n => exact ⟨[], rfl, rfl, fun n i j hn _ _ => by simp at hn⟩
  | cons fm ps ih =>
      intro fuel hfuel
      obtain ⟨M, hstr, hchar⟩ := parseSample_sampleLines ports fmt hP fm.1 fm.2
      have hslp := sampleLines_length_pos ports fmt fm.1 fm.2
      rw [List.flatMap_cons] at hfuel ⊢
      cases fuel with
      | zero => simp at hfuel
      | succ n =>
          have hn : (ps.flatMap (fun fm => sampleLines ports fmt fm.1 fm.2)).length < n := by
            rw [List.length_append] at hfuel
            omega
          obtain ⟨out', hout', hlen', hchar'⟩ := ih n hn
          refine ⟨(fm.1, M) :: out', ?_, by simp [hlen'], ?_⟩
          · rw [readSamplesGo, hstr (ps.flatMap (fun fm => sampleLines ports fmt fm.1 fm.2))]
            dsimp only
            rw [hout']
          · intro n i j hn' hi hj
            cases n with
            | zero =>
                refine ⟨rfl, ?_⟩
                rw [List.getD_cons_zero, List.getD_cons_zero]
                exact hchar i j hi hj
            | succ n' =>
                rw [List.getD_cons_succ, List.getD_cons_succ]
                exact hchar' n' i j (by simpa using hn') hi hj

theorem zip_getD_fst_snd (freqs : List ℝ) (mats : List (ℕ → ℕ → ℂ)) (n : ℕ)
    (hn : n < freqs.length) (hlen : freqs.length = mats.length) :
    (freqs.zip mats).getD n (0, initMat) = (freqs.getD n 0, mats.getD n initMat) := by
  have h1 : n < (freqs.zip mats).length := by
    rw [List.length_zip]
    omega
  rw [List.getD_eq_getElem _ _ h1, List.getElem_zip, List.getD_eq_getElem _ _ hn,
    List.getD_eq_getElem _ _ (by omega : n < mats.length)]

/-- **C3** — Round trip: writing a scattering-type dataset with any supported
numeric-format selector (`RI`, `MA`, `DB`) and re-reading the produced file
with the same port count succeeds and yields the same frequency sequence and
the same complex matrix entries (exactly, over the exact-real embedding; for
`DB` the entries must be nonzero, a zero having no finite dB magnitude).  The
`%g` rendering of the reference impedance is abstracted as a token `z0str`
that `float()` accepts. -/
theorem write_read_roundtrip (ports : ℕ) (fmt : String) (z0str : String) (w : ℝ)
    (freqs : List ℝ) (mats : List (ℕ → ℕ → ℂ))
    (hP : 0 < ports)
    (hfmt : fmt = "RI" ∨ fmt = "MA" ∨ fmt = "DB")
    (hlen : freqs.length = mats.length)
    (hne : z0str.toList.map Char.toUpper ≠ [])
    (hws : ∀ c ∈ z0str.toList.map Char.toUpper, c.isWhitespace = false)
    (hz0 : parseFloat (String.mk (z0str.toList.map Char.toUpper)) = some w)
    (hdb : fmt = "DB" → ∀ mt ∈ mats, ∀ i j, i < ports → j < ports → mt i j ≠ 0) :
    ∃ out,
      writeModel ports fmt z0str freqs mats =
        .ok (writeOptionLine fmt z0str, writeLines ports fmt freqs mats) ∧
      readModel ports (writeOptionLine fmt z0str) (writeLines ports fmt freqs mats) =
        .ok out ∧
      out.length = freqs.length ∧
      ∀ n i j, n < freqs.length → i < ports → j < ports →
        (out.getD n (0, initMat)).1 = freqs.getD n 0 ∧
        (out.getD n (0, initMat)).2 i j = (mats.getD n initMat) i j := by
  have hwrite : writeModel ports fmt z0str freqs mats =
      .ok (writeOptionLine fmt z0str, writeLines ports fmt freqs mats) := by
    rw [writeModel, if_pos hfmt]
  have hWL : writeLines ports fmt freqs mats =
      (freqs.zip mats).flatMap (fun fm => sampleLines ports fmt fm.1 fm.2) := rfl
  obtain ⟨out0, hout0, hlen0, hchar0⟩ := readSamplesGo_writeLines ports fmt hP
    (freqs.zip mats) ((writeLines ports fmt freqs mats).length + 1)
    (by rw [hWL]; omega)
  refine ⟨out0.map (fun fm => (fm.1 * 1, fm.2)), hwrite, ?_, ?_, ?_⟩
  · rw [readModel, parseOptionLine_writeOptionLine fmt z0str w hfmt hne hws hz0]
    dsimp only
    rw [hWL] at hout0
    rw [readSamples, hWL, hout0]
  · rw [List.length_map, hlen0, List.length_zip]
    omega
  · intro n i j hn hi hj
    have hn0 : n < out0.length := by
      rw [hlen0, List.length_zip]
      omega
    have hmap : (out0.map (fun fm => (fm.1 * 1, fm.2))).getD n (0, initMat) =
        ((out0.getD n (0, initMat)).1 * 1, (out0.getD n (0, initMat)).2) := by
      rw [List.getD_eq_getElem _ _ (by simpa using hn0), List.getElem_map,
        List.getD_eq_getElem _ _ hn0]
    obtain ⟨hf, hm⟩ := hchar0 n i j (by rw [List.length_zip]; omega) hi hj
    rw [zip_getD_fst_snd freqs mats n hn hlen] at hf hm
    constructor
    · rw [hmap]
      dsimp only
      rw [hf, mul_one]
    · rw [hmap]
      dsimp only
      rw [hm]
      refine decodePair_encodePair fmt _ (fun hdbf => ?_)
      refine hdb hdbf (mats.getD n initMat) ?_ i j hi hj
      rw [List.getD_eq_getElem _ _ (by omega : n < mats.length)]
      exact List.getElem_mem _

/-- Witness for C3: a 1-port, real-imaginary dataset with one frequency. -/
theorem write_read_roundtrip_witness :
    ∃ out,
      writeModel 1 "RI" "50" [1] [initMat] =
        .ok (writeOptionLine "RI" "50", writeLines 1 "RI" [1] [initMat]) ∧
      readModel 1 (writeOptionLine "RI" "50") (writeLines 1 "RI" [1] [initMat]) =
        .ok out ∧
      out.length = ([(1 : ℝ)]).length ∧
      ∀ n i j, n < ([(1 : ℝ)]).length → i < 1 → j < 1 →
        (out.getD n (0, initMat)).1 = ([(1 : ℝ)]).getD n 0 ∧
        (out.getD n (0, initMat)).2 i j = (([initMat]).getD n initMat) i j :=
  write_read_roundtrip 1 "RI" "50" ((50 : ℕ) : ℝ) [1] [initMat]
    (by norm_num) (Or.inl rfl) rfl (by decide) (by decide) rfl
    (fun h => absurd h (by decide))

end Touchstone

end NPort
